import Mathlib

/-!
Verification of the small-step / big-step / compiled semantics engine of
chapter2.js (the "Simple" toy imperative language).

The JavaScript source is shallowly embedded:

* `Lit` models the literal value nodes (`Number`, `Boolean` class instances);
  their `value` field holds a JS number or JS boolean.
* `Expr` models the expression nodes (`Number`, `Boolean`, `Variable`, `Add`,
  `Multiply`, `LessThan`), `Stmt` the statement nodes (`DoNothing`, `Assign`,
  `If`, `Sequence`, `While`).
* Environments are JS objects mapping names to nodes; a binding may hold the
  JS value `undefined` (modelled as `none`), and property update keeps the
  position of an existing key and appends a fresh one, as JS objects do.
* `evalE` / `evalS` model the `evaluate` methods, `reduceE` / `stepS` the
  `reduce` methods, `runMachine` the `Machine#run` driver, and
  `cevalE` / `cexecS` the semantics of the closures produced by `toJs`.
* JS dynamic behaviour in the value range that actually occurs (integers and
  booleans) is modelled exactly: `+`, `*`, `<` coerce booleans via `ToNumber`,
  a missing property read yields `undefined`, and reading `.value` of
  `undefined` throws a `TypeError` (modelled by the `err` results).
-/

namespace Chapter2

/-- A literal value node: an instance of the source's `Number` or `Boolean`
class.  The `value` field holds the underlying JS number or boolean. -/
inductive Lit : Type
| number (value : Int)
| boolean (value : Bool)
deriving DecidableEq

/-- Expression nodes of the language. -/
inductive Expr : Type
| lit (l : Lit)
| variable (name : String)
| add (left right : Expr)
| multiply (left right : Expr)
| lessThan (left right : Expr)
deriving DecidableEq

/-- Statement nodes of the language. -/
inductive Stmt : Type
| doNothing
| assign (name : String) (expression : Expr)
| ifStmt (condition : Expr) (consequence alternative : Stmt)
| sequence (first second : Stmt)
| whileStmt (condition : Expr) (body : Stmt)
deriving DecidableEq

/-- An environment object: JS object mapping names to literal nodes.  A `none`
value models a property that is bound to the JS value `undefined`. -/
def Env : Type := List (String × Option Lit)

instance : DecidableEq Env := inferInstanceAs (DecidableEq (List (String × Option Lit)))

/-- JS property read `env[name]`: both a missing property and a property bound
to `undefined` read as `undefined` (`none`). -/
def jsLookup (env : Env) (name : String) : Option Lit :=
  match List.lookup name env with
  | some v => v
  | none => none

/-- JS property write `obj[key] = val`: updates an existing key in place
(keeping its position, as JS objects keep insertion order) or appends a new
one. -/
def setKey {α : Type} : List (String × α) → String → α → List (String × α)
| [], key, val => [(key, val)]
| (k, v) :: rest, key, val =>
    if k = key then (key, val) :: rest else (k, v) :: setKey rest key val

/-- The source's `merge(obj, key, val)` function: `obj[key] = val; return obj`.
This is its result as a mapping (the object-identity aspect of the in-place
update is modelled separately by `mergeH`). -/
def merge (obj : Env) (key : String) (val : Option Lit) : Env :=
  setKey obj key val

/-- JS `ToNumber` coercion on the value range occurring in this program:
numbers are themselves, `true` is 1 and `false` is 0.  Used by `+`, `*`, `<`. -/
def toNum : Lit → Int
| .number v => v
| .boolean b => if b then 1 else 0

/-- `new Number(left.value + right.value)` with JS coercion. -/
def jsAdd (a b : Lit) : Lit := .number (toNum a + toNum b)

/-- `new Number(left.value * right.value)` with JS coercion. -/
def jsMul (a b : Lit) : Lit := .number (toNum a * toNum b)

/-- `new Boolean(left.value < right.value)` with JS coercion. -/
def jsLt (a b : Lit) : Lit := .boolean (decide (toNum a < toNum b))

/-- Result of evaluating an expression: a literal node, the JS value
`undefined` (what `env[name]` yields for an unbound variable), or a thrown
`TypeError` (reading `.value` of `undefined`). -/
inductive ERes : Type
| ok (l : Lit)
| undefined
| err
deriving DecidableEq

/-- `evaluate(env)` for expression nodes, method by method:
literals return `this`; `Variable` returns `env[name]`; the binary operators
evaluate `left`, read its `.value` (throwing on `undefined`), then do the same
for `right`, and build the result literal. -/
def evalE : Expr → Env → ERes
| .lit l, _ => .ok l
| .variable n, env =>
    match jsLookup env n with
    | some l => .ok l
    | none => .undefined
| .add l r, env =>
    match evalE l env with
    | .ok a =>
        match evalE r env with
        | .ok b => .ok (jsAdd a b)
        | _ => .err
    | _ => .err
| .multiply l r, env =>
    match evalE l env with
    | .ok a =>
        match evalE r env with
        | .ok b => .ok (jsMul a b)
        | _ => .err
    | _ => .err
| .lessThan l r, env =>
    match evalE l env with
    | .ok a =>
        match evalE r env with
        | .ok b => .ok (jsLt a b)
        | _ => .err
    | _ => .err

/-- `reducible()` for expression nodes: literals answer `false`, everything
else answers `true`. -/
def reducibleE : Expr → Bool
| .lit _ => false
| _ => true

/-- `reduce(env)` for expression nodes.  `none` models the cases in which the
JS computation does not produce a proper node: `Variable` on a missing binding
returns `undefined`, and a sub-reduction that yielded `undefined` is
propagated instead of being wrapped into a malformed node. -/
def reduceE : Expr → Env → Option Expr
| .lit _, _ => none
| .variable n, env => (jsLookup env n).map .lit
| .add l r, env =>
    if reducibleE l then (reduceE l env).map (fun l' => .add l' r)
    else if reducibleE r then (reduceE r env).map (fun r' => .add l r')
    else
      match l, r with
      | .lit a, .lit b => some (.lit (jsAdd a b))
      | _, _ => none
| .multiply l r, env =>
    if reducibleE l then (reduceE l env).map (fun l' => .multiply l' r)
    else if reducibleE r then (reduceE r env).map (fun r' => .multiply l r')
    else
      match l, r with
      | .lit a, .lit b => some (.lit (jsMul a b))
      | _, _ => none
| .lessThan l r, env =>
    if reducibleE l then (reduceE l env).map (fun l' => .lessThan l' r)
    else if reducibleE r then (reduceE r env).map (fun r' => .lessThan l r')
    else
      match l, r with
      | .lit a, .lit b => some (.lit (jsLt a b))
      | _, _ => none

/-- `reducible()` for statement nodes: only `DoNothing` answers `false`. -/
def reducibleS : Stmt → Bool
| .doNothing => false
| _ => true

/-- `reduce(env)` for statement nodes, returning the `[statement, env]` pair.
`none` models the runs in which the JS computation fails to produce a proper
pair: `DoNothing` has no `reduce` method, `If` with an irreducible non-boolean
condition falls off the end returning `undefined`, and a failed sub-reduction
is propagated. -/
def stepS : Stmt → Env → Option (Stmt × Env)
| .doNothing, _ => none
| .assign n e, env =>
    if reducibleE e then (reduceE e env).map (fun e' => (.assign n e', env))
    else
      match e with
      | .lit v => some (.doNothing, merge env n (some v))
      | _ => none
| .ifStmt c cs alt, env =>
    if reducibleE c then (reduceE c env).map (fun c' => (.ifStmt c' cs alt, env))
    else
      match c with
      | .lit (.boolean true) => some (cs, env)
      | .lit (.boolean false) => some (alt, env)
      | _ => none
| .sequence f s2, env =>
    match f with
    | .doNothing => some (s2, env)
    | _ => (stepS f env).map (fun p => (.sequence p.1 s2, p.2))
| .whileStmt c b, env =>
    some (.ifStmt c (.sequence b (.whileStmt c b)) .doNothing, env)

/-- Result of evaluating a statement: an environment, the JS value `undefined`
(an `If`/`While` whose condition is neither `true` nor `false` falls off the
end of `evaluate`), or a thrown error. -/
inductive SRes : Type
| env (e : Env)
| undefined
| err
deriving DecidableEq

/-- `evaluate(env)` for statement nodes, fuel-indexed because `While` recurses
(`none` means the fuel ran out).  Each method is modelled clause by clause;
the two `some .err` clauses for a non-environment intermediate result model
the JS computation continuing with `undefined` in place of an environment,
which is outside the modelled value domain and immediately fails on any
program whose data this development touches. -/
def evalS : Nat → Stmt → Env → Option SRes
| 0, _, _ => none
| _ + 1, .doNothing, env => some (.env env)
| _ + 1, .assign n e, env =>
    match evalE e env with
    | .ok v => some (.env (merge env n (some v)))
    | .undefined => some (.env (merge env n none))
    | .err => some .err
| k + 1, .ifStmt c cs alt, env =>
    match evalE c env with
    | .ok (.boolean true) => evalS k cs env
    | .ok (.boolean false) => evalS k alt env
    | .ok _ => some .undefined
    | .undefined => some .err
    | .err => some .err
| k + 1, .sequence a b, env =>
    match evalS k a env with
    | some (.env e1) => evalS k b e1
    | some _ => some .err
    | none => none
| k + 1, .whileStmt c b, env =>
    match evalE c env with
    | .ok (.boolean true) =>
        match evalS k b env with
        | some (.env e1) => evalS k (.whileStmt c b) e1
        | some _ => some .err
        | none => none
    | .ok (.boolean false) => some (.env env)
    | .ok _ => some .undefined
    | .undefined => some .err
    | .err => some .err

/-- `Machine#run`: repeatedly `step` while the statement is reducible, then
return the final `(statement, env)` pair.  Fuel-indexed; `none` means either
the fuel ran out or a `reduce` call failed to return a proper pair. -/
def runMachine : Nat → Stmt → Env → Option (Stmt × Env)
| 0, s, env => if reducibleS s then none else some (s, env)
| f + 1, s, env =>
    if reducibleS s then
      match stepS s env with
      | some p => runMachine f p.1 p.2
      | none => none
    else some (s, env)

/-- Iterate `stepS` an exact number of times. -/
def stepN : Nat → Stmt → Env → Option (Stmt × Env)
| 0, s, env => some (s, env)
| k + 1, s, env =>
    match stepS s env with
    | some p => stepN k p.1 p.2
    | none => none

/-! ### Semantics of the compiled closures (`toJs`)

The `toJs` methods build JavaScript source text for single-argument closures
over a plain object whose properties are raw JS values (the samples invoke
them on `{ x: 1 }`, `{ x: false }`).  The functions below give the semantics
of the generated code directly: `CVal` is the raw JS value range the closures
manipulate (numbers, booleans, `NaN` from arithmetic on `undefined`, and
`undefined` from a missing property), `cevalE e` is the denotation of
`eval(e.toJs())` for an expression and `cexecS` for a statement, with fuel for
the `while` loop compiled from `While`. -/

/-- Raw JS values flowing through compiled closures. -/
inductive CVal : Type
| num (n : Int)
| bool (b : Bool)
| nan
| undefined
deriving DecidableEq

/-- A compiled-code environment: JS object of raw values. -/
def CEnv : Type := List (String × CVal)

instance : DecidableEq CEnv := inferInstanceAs (DecidableEq (List (String × CVal)))

/-- JS `ToNumber` on raw values: `NaN` and `undefined` have no integer
coercion (they coerce to `NaN`). -/
def toNumC : CVal → Option Int
| .num n => some n
| .bool b => some (if b then 1 else 0)
| .nan => none
| .undefined => none

/-- JS `+` on raw values (numeric range): any `NaN`/`undefined` operand gives
`NaN`. -/
def jsAddC (a b : CVal) : CVal :=
  match toNumC a, toNumC b with
  | some x, some y => .num (x + y)
  | _, _ => .nan

/-- JS `*` on raw values. -/
def jsMulC (a b : CVal) : CVal :=
  match toNumC a, toNumC b with
  | some x, some y => .num (x * y)
  | _, _ => .nan

/-- JS `<` on raw values: comparisons involving `NaN`/`undefined` are
`false`. -/
def jsLtC (a b : CVal) : CVal :=
  match toNumC a, toNumC b with
  | some x, some y => .bool (decide (x < y))
  | _, _ => .bool false

/-- JS truthiness, used by the compiled `if (...)` and `while (...)`. -/
def truthy : CVal → Bool
| .num n => decide (n ≠ 0)
| .bool b => b
| .nan => false
| .undefined => false

/-- The raw JS value a literal node's generated code returns
(`Number.toJs` splices the decimal text of `value`, `Boolean.toJs` splices
`true`/`false`). -/
def projLit : Lit → CVal
| .number n => .num n
| .boolean b => .bool b

/-- Denotation of `eval(e.toJs())` applied to a compiled environment:
literals return their spliced constant, `Variable` compiles to the property
read `e.name` (`undefined` when missing), the operators apply the raw JS
operator to the compiled sub-closures' results. -/
def cevalE : Expr → CEnv → CVal
| .lit l, _ => projLit l
| .variable n, env =>
    match List.lookup n env with
    | some v => v
    | none => .undefined
| .add l r, env => jsAddC (cevalE l env) (cevalE r env)
| .multiply l r, env => jsMulC (cevalE l env) (cevalE r env)
| .lessThan l r, env => jsLtC (cevalE l env) (cevalE r env)

/-- Denotation of `eval(s.toJs())` applied to a compiled environment,
fuel-indexed because the closure compiled from `While` contains a JS `while`
loop (`none` means the fuel ran out). -/
def cexecS : Nat → Stmt → CEnv → Option CEnv
| 0, _, _ => none
| _ + 1, .doNothing, env => some env
| _ + 1, .assign n e, env => some (setKey env n (cevalE e env))
| k + 1, .ifStmt c cs alt, env =>
    if truthy (cevalE c env) then cexecS k cs env else cexecS k alt env
| k + 1, .sequence a b, env =>
    match cexecS k a env with
    | some e1 => cexecS k b e1
    | none => none
| k + 1, .whileStmt c b, env =>
    if truthy (cevalE c env) then
      match cexecS k b env with
      | some e1 => cexecS k (.whileStmt c b) e1
      | none => none
    else some env

/-- The raw JS value corresponding to an interpreter environment entry. -/
def projVal : Option Lit → CVal
| some l => projLit l
| none => .undefined

/-- The compiled-code environment corresponding to an interpreter
environment. -/
def projEnv (env : Env) : CEnv :=
  env.map (fun p => (p.1, projVal p.2))

/-! ### Object-identity model of `merge`

`merge(obj, key, val)` writes `obj[key] = val` and returns `obj`: the very
same object, mutated in place.  To reason about what other holders of the
environment object observe, the functions below model the heap explicitly: a
store of environment objects addressed by reference. -/

/-- The heap: environment objects addressed by position. -/
def Store : Type := List Env

instance : DecidableEq Store := inferInstanceAs (DecidableEq (List Env))

/-- `merge(obj, key, val)` at the object level: the object at reference `r`
is updated in place and the function returns the same reference `r`. -/
def mergeH (st : Store) (r : Nat) (key : String) (val : Option Lit) :
    Store × Nat :=
  (st.set r (setKey (st.getD r []) key val), r)

/-- `Assign#evaluate(env)` with the environment passed by reference:
`merge(env, this.name, this.expression.evaluate(env))`.  Returns the new
store and the reference of the returned environment (`none` if expression
evaluation threw). -/
def assignEvaluateH (st : Store) (r : Nat) (name : String) (expr : Expr) :
    Option (Store × Nat) :=
  match evalE expr (st.getD r []) with
  | .ok v => some (mergeH st r name (some v))
  | .undefined => some (mergeH st r name none)
  | .err => none

/-! ### Typing

The typing judgment for expressions used by the claims about well-typed
programs: arithmetic operators take number-typed operands, `lessThan`
compares numbers and yields a boolean, and variables have the type the
context assigns. -/

/-- Expression types. -/
inductive Ty : Type
| num
| bool
deriving DecidableEq

/-- Typing contexts. -/
abbrev TCtx : Type := List (String × Ty)

/-- The type of a literal node. -/
def litTy : Lit → Ty
| .number _ => .num
| .boolean _ => .bool

/-- Well-typed expressions over a context. -/
inductive WTExpr : TCtx → Expr → Ty → Prop
| number {Γ v} : WTExpr Γ (.lit (.number v)) .num
| boolean {Γ b} : WTExpr Γ (.lit (.boolean b)) .bool
| variableRule {Γ n τ} (h : List.lookup n Γ = some τ) : WTExpr Γ (.variable n) τ
| add {Γ l r} (hl : WTExpr Γ l .num) (hr : WTExpr Γ r .num) :
    WTExpr Γ (.add l r) .num
| multiply {Γ l r} (hl : WTExpr Γ l .num) (hr : WTExpr Γ r .num) :
    WTExpr Γ (.multiply l r) .num
| lessThan {Γ l r} (hl : WTExpr Γ l .num) (hr : WTExpr Γ r .num) :
    WTExpr Γ (.lessThan l r) .bool

/-- Decidable check that an environment provides a correctly-typed literal
binding for every name of the context. -/
def envTyB (Γ : TCtx) (env : Env) : Bool :=
  Γ.all (fun p =>
    match jsLookup env p.1 with
    | some l => litTy l == p.2
    | none => false)

/-- Number of reduction steps an expression needs to reach a literal: one per
operator node plus one per variable occurrence. -/
def weight : Expr → Nat
| .lit _ => 0
| .variable _ => 1
| .add l r => weight l + weight r + 1
| .multiply l r => weight l + weight r + 1
| .lessThan l r => weight l + weight r + 1

/-- Repeatedly apply expression `reduce` while `reducible()`, with fuel:
the loop a client of the expression reducer runs (mirroring `Machine#run` on
the expression side). -/
def exprRun : Nat → Expr → Env → Option Expr
| 0, e, _ => if reducibleE e then none else some e
| f + 1, e, env =>
    if reducibleE e then
      match reduceE e env with
      | some e' => exprRun f e' env
      | none => none
    else some e

/-! ## Basic lemmas -/

theorem lookup_setKey_self {α : Type} (l : List (String × α)) (k : String) (v : α) :
    List.lookup k (setKey l k v) = some v := by
  induction l with
  | nil => simp [setKey, List.lookup]
  | cons p rest ih =>
      obtain ⟨k', v'⟩ := p
      by_cases h : k' = k
      · simp [setKey, h, List.lookup]
      · simp only [setKey, if_neg h, List.lookup]
        have hb : (k == k') = false := by
          rw [beq_eq_false_iff_ne]
          exact fun hk => h hk.symm
        simp [hb, ih]

theorem lookup_setKey_ne {α : Type} (l : List (String × α)) (k m : String) (v : α)
    (h : m ≠ k) : List.lookup m (setKey l k v) = List.lookup m l := by
  induction l with
  | nil =>
      have hb : (m == k) = false := by rw [beq_eq_false_iff_ne]; exact h
      simp [setKey, List.lookup, hb]
  | cons p rest ih =>
      obtain ⟨k', v'⟩ := p
      by_cases hk : k' = k
      · subst hk
        have hb : (m == k') = false := by rw [beq_eq_false_iff_ne]; exact h
        simp [setKey, List.lookup, hb]
      · simp only [setKey, if_neg hk, List.lookup]
        cases hbeq : (m == k') <;> simp [ih]

theorem jsLookup_merge_self (env : Env) (n : String) (v : Option Lit) :
    jsLookup (merge env n v) n = v.elim none some := by
  cases v <;> simp [jsLookup, merge, lookup_setKey_self, Option.elim]

theorem jsLookup_merge_ne (env : Env) (n m : String) (v : Option Lit)
    (h : m ≠ n) : jsLookup (merge env n v) m = jsLookup env m := by
  simp [jsLookup, merge, lookup_setKey_ne env n m v h]

/-! ## Claim theorems (concrete claims) -/

/-- Claim C2, counterexample: `merge` updates the environment object in
place.  Starting from a store holding the single environment object
`{x: Number(2)}` at reference 0, evaluating `Assign("x", Add(Variable("x"),
NumberLiteral(1)))` returns reference 0 itself — the very same object — and
the object now reads `{x: Number(3)}`: a holder of the original environment
observes the mutation, refuting "the original env is not mutated as observed
by other holders". -/
theorem assign_merge_mutates_in_place :
    assignEvaluateH [[("x", some (.number 2))]] 0 "x"
        (.add (.variable "x") (.lit (.number 1)))
      = some ([[("x", some (.number 3))]], 0)
    ∧ ([[("x", some (Lit.number 2))]] : Store).getD 0 [] = [("x", some (.number 2))]
    ∧ ¬ ([("x", some (Lit.number 3))] : Env) = [("x", some (.number 2))] := by
  refine ⟨by decide, by decide, by decide⟩

/-- Claim C2 (amended): evaluating `Assign(name, expr)` under `env`, when
`expr` evaluates to `v`, returns the environment `merge env name v`, in which
`name` reads as `v` and every other name reads as it did in `env`; however the
update is performed in place on the environment object itself (`merge` returns
its mutated argument), so the "functional update" is logical only. -/
theorem assign_updates_exactly_one_binding (env : Env) (name : String)
    (expr : Expr) (v : Lit) (k : Nat) (h : evalE expr env = .ok v) :
    evalS (k + 1) (.assign name expr) env
        = some (.env (merge env name (some v)))
    ∧ jsLookup (merge env name (some v)) name = some v
    ∧ ∀ m, m ≠ name → jsLookup (merge env name (some v)) m = jsLookup env m := by
  refine ⟨?_, ?_, ?_⟩
  · simp [evalS, h]
  · simpa [Option.elim] using jsLookup_merge_self env name (some v)
  · intro m hm
    exact jsLookup_merge_ne env name m (some v) hm

/-- Witness for the amended claim C2 at `env = {x: Number(2)}`,
`Assign("x", Add(Variable("x"), NumberLiteral(1)))`. -/
theorem assign_updates_exactly_one_binding_witness :
    evalS 1 (.assign "x" (.add (.variable "x") (.lit (.number 1))))
        [("x", some (.number 2))]
        = some (.env (merge [("x", some (.number 2))] "x" (some (.number 3))))
    ∧ jsLookup (merge [("x", some (.number 2))] "x" (some (.number 3))) "x"
        = some (.number 3)
    ∧ ∀ m, m ≠ "x" →
        jsLookup (merge [("x", some (.number 2))] "x" (some (.number 3))) m
          = jsLookup [("x", some (.number 2))] m :=
  assign_updates_exactly_one_binding [("x", some (.number 2))] "x"
    (.add (.variable "x") (.lit (.number 1))) (.number 3) 0 (by decide)

/-- Claim C3, counterexample: after exactly 2 small steps, the pair
`(Assign("x", Add(Variable("x"), NumberLiteral(1))), {x: 2})` has reached
`(Assign("x", NumberLiteral(3)), {x: 2})`, which is not the terminal pair
`(DoNothing, {x: 3})` the claim announces. -/
theorem assign_two_steps_not_terminal :
    stepN 2 (.assign "x" (.add (.variable "x") (.lit (.number 1))))
        [("x", some (.number 2))]
      = some (.assign "x" (.lit (.number 3)), [("x", some (.number 2))])
    ∧ ¬ (some ((Stmt.assign "x" (.lit (.number 3))),
          ([("x", some (Lit.number 2))] : Env))
        = some ((Stmt.doNothing), ([("x", some (Lit.number 3))] : Env))) := by
  refine ⟨by decide, by decide⟩

/-- Claim C3 (amended): starting from the pair
`(Assign("x", Add(Variable("x"), NumberLiteral(1))), {x: 2})`, small-step
statement reduction reaches the terminal pair `(DoNothing, {x: 3})` after
exactly 3 steps (after 2 steps the statement `x = 3` is still reducible). -/
theorem assign_self_reference_three_steps :
    stepN 3 (.assign "x" (.add (.variable "x") (.lit (.number 1))))
        [("x", some (.number 2))]
      = some (.doNothing, [("x", some (.number 3))])
    ∧ stepN 2 (.assign "x" (.add (.variable "x") (.lit (.number 1))))
        [("x", some (.number 2))]
      = some (.assign "x" (.lit (.number 3)), [("x", some (.number 2))])
    ∧ reducibleS (.assign "x" (.lit (.number 3))) = true := by
  refine ⟨by decide, by decide, by decide⟩

/-- Claim C4: one small-step reduction of `While(cond, body)` under any
environment returns exactly the pair
`(If(cond, Sequence(body, the same While node), DoNothing), env)`, leaving the
environment unchanged. -/
theorem while_reduce_unrolls (c : Expr) (b : Stmt) (env : Env) :
    stepS (.whileStmt c b) env
      = some (.ifStmt c (.sequence b (.whileStmt c b)) .doNothing, env) := rfl

/-- Claim C6: for the loop `while (x < 5) { x = x * 3 }` started at
`{x: 1}`, the small-step Machine run terminates (within 40 steps) at
`(DoNothing, {x: 9})`, and big-step evaluation terminates (within fuel 20)
with the same final environment `{x: 9}`. -/
theorem while_machine_and_evaluate_agree_concrete :
    runMachine 40
        (.whileStmt (.lessThan (.variable "x") (.lit (.number 5)))
          (.assign "x" (.multiply (.variable "x") (.lit (.number 3)))))
        [("x", some (.number 1))]
      = some (.doNothing, [("x", some (.number 9))])
    ∧ evalS 20
        (.whileStmt (.lessThan (.variable "x") (.lit (.number 5)))
          (.assign "x" (.multiply (.variable "x") (.lit (.number 3)))))
        [("x", some (.number 1))]
      = some (.env [("x", some (.number 9))]) := by
  refine ⟨by decide, by decide⟩

/-- Claim C7, counterexample: evaluating `Variable("z")` under the empty
environment does not fail at all — it silently yields the absent JS value
`undefined` (the `.undefined` result), which is distinct from a thrown error
(the `.err` result). -/
theorem unbound_variable_silent_counterexample :
    evalE (.variable "z") ([] : Env) = .undefined ∧ ERes.undefined ≠ ERes.err := by
  refine ⟨by decide, by decide⟩

/-- Claim C7 (amended): evaluating `Variable("z")` under `{}` silently
produces the absent value `undefined` at the point of lookup, in the
Evaluator, the Reducer, and the compiled closure alike; no explicit
`UnboundVariable` error exists in the program. -/
theorem unbound_variable_yields_absent :
    evalE (.variable "z") ([] : Env) = .undefined
    ∧ reduceE (.variable "z") ([] : Env) = none
    ∧ cevalE (.variable "z") ([] : CEnv) = .undefined := by
  refine ⟨by decide, by decide, by decide⟩

/-- Claim C8, counterexample: evaluating
`If(NumberLiteral(1), DoNothing, DoNothing)` — whose condition is neither
`true` nor `false` — does not fail: `evaluate` falls through and returns no
result (the JS value `undefined`, modelled as `.undefined`), which is distinct
from a thrown error. -/
theorem nonbool_condition_counterexample :
    evalS 3 (.ifStmt (.lit (.number 1)) .doNothing .doNothing) ([] : Env)
      = some .undefined
    ∧ SRes.undefined ≠ SRes.err := by
  refine ⟨by decide, by decide⟩

/-- Claim C8 (amended): when the condition of an `If` or `While` is a value
that is neither `true` nor `false` (e.g. a number), big-step evaluation falls
through and returns no result (`undefined`), and `If.reduce` likewise falls
off the end instead of producing a pair; no `TypeMismatch` error is
raised. -/
theorem nonbool_condition_falls_through :
    evalS 3 (.ifStmt (.lit (.number 1)) .doNothing .doNothing) ([] : Env)
      = some .undefined
    ∧ evalS 3 (.whileStmt (.lit (.number 1)) .doNothing) ([] : Env)
      = some .undefined
    ∧ stepS (.ifStmt (.lit (.number 1)) .doNothing .doNothing) ([] : Env)
      = none := by
  refine ⟨by decide, by decide, by decide⟩

/-! ## Small-step / big-step agreement for statements -/

theorem not_reducibleE (e : Expr) (h : reducibleE e = false) : ∃ l, e = .lit l := by
  cases e <;> simp [reducibleE] at h ⊢

theorem reducibleS_false_iff (s : Stmt) : reducibleS s = false ↔ s = .doNothing := by
  cases s <;> simp [reducibleS]

theorem evalS_succ_of_some {k : Nat} {s : Stmt} {env : Env} {r : SRes}
    (h : evalS k s env = some r) : ∃ k', k = k' + 1 := by
  cases k with
  | zero => simp [evalS] at h
  | succ k' => exact ⟨k', rfl⟩

theorem evalS_mono : ∀ (k : Nat) (s : Stmt) (env : Env) (r : SRes) (k' : Nat),
    k ≤ k' → evalS k s env = some r → evalS k' s env = some r := by
  intro k
  induction k with
  | zero => intro s env r k' _ h; simp [evalS] at h
  | succ k ih =>
      intro s env r k' hk h
      obtain ⟨k'', rfl⟩ : ∃ k'', k' = k'' + 1 := ⟨k' - 1, by omega⟩
      have hkk : k ≤ k'' := by omega
      cases s with
      | doNothing => simpa [evalS] using h
      | assign n e => simpa [evalS] using h
      | ifStmt c cs alt =>
          simp only [evalS] at h ⊢
          cases hc : evalE c env with
          | ok l =>
              rw [hc] at h
              cases l with
              | number v => exact h
              | boolean b =>
                  cases b with
                  | false => exact ih _ _ _ _ hkk h
                  | true => exact ih _ _ _ _ hkk h
          | undefined => rw [hc] at h; exact h
          | err => rw [hc] at h; exact h
      | sequence a b =>
          simp only [evalS] at h ⊢
          cases ha : evalS k a env with
          | none => rw [ha] at h; exact Option.noConfusion h
          | some r1 =>
              rw [ha] at h
              rw [ih _ _ _ _ hkk ha]
              cases r1 with
              | env e1 => exact ih _ _ _ _ hkk h
              | undefined => exact h
              | err => exact h
      | whileStmt c b =>
          simp only [evalS] at h ⊢
          cases hc : evalE c env with
          | ok l =>
              rw [hc] at h
              cases l with
              | number v => exact h
              | boolean bv =>
                  cases bv with
                  | false => exact h
                  | true =>
                      cases hb : evalS k b env with
                      | none => rw [hb] at h; exact Option.noConfusion h
                      | some r1 =>
                          rw [hb] at h
                          rw [ih _ _ _ _ hkk hb]
                          cases r1 with
                          | env e1 => exact ih _ _ _ _ hkk h
                          | undefined => exact h
                          | err => exact h
          | undefined => rw [hc] at h; exact h
          | err => rw [hc] at h; exact h

theorem evalE_reduceE : ∀ (e : Expr) (env : Env) (e' : Expr),
    reduceE e env = some e' → evalE e' env = evalE e env := by
  intro e
  induction e with
  | lit l => intro env e' h; simp [reduceE] at h
  | «variable» n =>
      intro env e' h
      simp only [reduceE, Option.map_eq_some'] at h
      obtain ⟨l, hl, rfl⟩ := h
      simp [evalE, jsLookup] at hl ⊢
      rw [hl]
  | add l r ihl ihr =>
      intro env e' h
      by_cases hl : reducibleE l
      · simp only [reduceE, if_pos hl, Option.map_eq_some'] at h
        obtain ⟨l', hred, rfl⟩ := h
        simp only [evalE, ihl env l' hred]
      · by_cases hr : reducibleE r
        · simp only [reduceE, if_neg hl, if_pos hr, Option.map_eq_some'] at h
          obtain ⟨r', hred, rfl⟩ := h
          simp only [evalE, ihr env r' hred]
        · obtain ⟨a, rfl⟩ := not_reducibleE l (by simpa using hl)
          obtain ⟨b, rfl⟩ := not_reducibleE r (by simpa using hr)
          simp only [reduceE, if_neg hl, if_neg hr, Option.some_inj] at h
          subst h
          simp [evalE]
  | multiply l r ihl ihr =>
      intro env e' h
      by_cases hl : reducibleE l
      · simp only [reduceE, if_pos hl, Option.map_eq_some'] at h
        obtain ⟨l', hred, rfl⟩ := h
        simp only [evalE, ihl env l' hred]
      · by_cases hr : reducibleE r
        · simp only [reduceE, if_neg hl, if_pos hr, Option.map_eq_some'] at h
          obtain ⟨r', hred, rfl⟩ := h
          simp only [evalE, ihr env r' hred]
        · obtain ⟨a, rfl⟩ := not_reducibleE l (by simpa using hl)
          obtain ⟨b, rfl⟩ := not_reducibleE r (by simpa using hr)
          simp only [reduceE, if_neg hl, if_neg hr, Option.some_inj] at h
          subst h
          simp [evalE]
  | lessThan l r ihl ihr =>
      intro env e' h
      by_cases hl : reducibleE l
      · simp only [reduceE, if_pos hl, Option.map_eq_some'] at h
        obtain ⟨l', hred, rfl⟩ := h
        simp only [evalE, ihl env l' hred]
      · by_cases hr : reducibleE r
        · simp only [reduceE, if_neg hl, if_pos hr, Option.map_eq_some'] at h
          obtain ⟨r', hred, rfl⟩ := h
          simp only [evalE, ihr env r' hred]
        · obtain ⟨a, rfl⟩ := not_reducibleE l (by simpa using hl)
          obtain ⟨b, rfl⟩ := not_reducibleE r (by simpa using hr)
          simp only [reduceE, if_neg hl, if_neg hr, Option.some_inj] at h
          subst h
          simp [evalE]

theorem stepS_sequence_of_ne (f s2 : Stmt) (env : Env) (hf : f ≠ .doNothing) :
    stepS (.sequence f s2) env
      = (stepS f env).map (fun p => (.sequence p.1 s2, p.2)) := by
  cases f <;> first | exact absurd rfl hf | rfl

theorem stepS_evalS : ∀ (s : Stmt) (env : Env) (s' : Stmt) (env' : Env)
    (k : Nat) (e : Env), stepS s env = some (s', env') →
    evalS k s' env' = some (.env e) → ∃ k2, evalS k2 s env = some (.env e) := by
  intro s
  induction s with
  | doNothing => intro env s' env' k e hstep _; simp [stepS] at hstep
  | assign n ex =>
      intro env s' env' k e hstep heval
      by_cases hre : reducibleE ex
      · simp only [stepS, if_pos hre, Option.map_eq_some'] at hstep
        obtain ⟨ex', hred, heq⟩ := hstep
        injection heq with h1 h2
        subst h1; subst h2
        obtain ⟨k', rfl⟩ := evalS_succ_of_some heval
        refine ⟨k' + 1, ?_⟩
        simp only [evalS] at heval ⊢
        rw [evalE_reduceE ex env ex' hred] at heval
        exact heval
      · obtain ⟨v, rfl⟩ := not_reducibleE ex (by simpa using hre)
        have hstep' : (Stmt.doNothing, merge env n (some v)) = (s', env') := by
          simpa [stepS, reducibleE] using hstep
        injection hstep' with h1 h2
        subst h1; subst h2
        obtain ⟨k', rfl⟩ := evalS_succ_of_some heval
        have he : merge env n (some v) = e := by simpa [evalS] using heval
        refine ⟨1, ?_⟩
        simp [evalS, evalE, he]
  | ifStmt c cs alt ihcs ihalt =>
      intro env s' env' k e hstep heval
      by_cases hrc : reducibleE c
      · simp only [stepS, if_pos hrc, Option.map_eq_some'] at hstep
        obtain ⟨c', hred, heq⟩ := hstep
        injection heq with h1 h2
        subst h1; subst h2
        obtain ⟨k', rfl⟩ := evalS_succ_of_some heval
        refine ⟨k' + 1, ?_⟩
        simp only [evalS] at heval ⊢
        rw [evalE_reduceE c env c' hred] at heval
        exact heval
      · obtain ⟨l, rfl⟩ := not_reducibleE c (by simpa using hrc)
        cases l with
        | number v => simp [stepS, reducibleE] at hstep
        | boolean bv =>
            cases bv with
            | true =>
                have hstep' : (cs, env) = (s', env') := by
                  simpa [stepS, reducibleE] using hstep
                injection hstep' with h1 h2
                subst h1; subst h2
                refine ⟨k + 1, ?_⟩
                simp only [evalS, evalE]
                exact heval
            | false =>
                have hstep' : (alt, env) = (s', env') := by
                  simpa [stepS, reducibleE] using hstep
                injection hstep' with h1 h2
                subst h1; subst h2
                refine ⟨k + 1, ?_⟩
                simp only [evalS, evalE]
                exact heval
  | sequence f s2 ihf ihs2 =>
      intro env s' env' k e hstep heval
      by_cases hf : f = .doNothing
      · subst hf
        have hstep' : (s2, env) = (s', env') := by simpa [stepS] using hstep
        injection hstep' with h1 h2
        subst h1; subst h2
        obtain ⟨k', rfl⟩ := evalS_succ_of_some heval
        refine ⟨k' + 2, ?_⟩
        simp only [evalS]
        exact heval
      · rw [stepS_sequence_of_ne f s2 env hf, Option.map_eq_some'] at hstep
        obtain ⟨p, hpf, heq⟩ := hstep
        injection heq with h1 h2
        subst h1; subst h2
        obtain ⟨k', rfl⟩ := evalS_succ_of_some heval
        simp only [evalS] at heval
        cases h1 : evalS k' p.1 p.2 with
        | none => rw [h1] at heval; exact Option.noConfusion heval
        | some r1 =>
            rw [h1] at heval
            cases r1 with
            | env e1 =>
                obtain ⟨k2, hk2⟩ := ihf env p.1 p.2 k' e1 hpf h1
                refine ⟨max k2 k' + 1, ?_⟩
                simp only [evalS]
                rw [evalS_mono k2 f env _ (max k2 k') (le_max_left _ _) hk2]
                exact evalS_mono k' s2 e1 _ (max k2 k') (le_max_right _ _) heval
            | undefined => exact absurd heval (by simp)
            | err => exact absurd heval (by simp)
  | whileStmt c b ihb =>
      intro env s' env' k e hstep heval
      have hstep' : ((Stmt.ifStmt c (.sequence b (.whileStmt c b)) .doNothing), env)
          = (s', env') := by simpa [stepS] using hstep
      injection hstep' with h1 h2
      subst h1; subst h2
      obtain ⟨k', rfl⟩ := evalS_succ_of_some heval
      simp only [evalS] at heval
      cases hc : evalE c env with
      | ok l =>
          rw [hc] at heval
          cases l with
          | number v => exact absurd heval (by simp)
          | boolean bv =>
              cases bv with
              | false =>
                  obtain ⟨k'', rfl⟩ := evalS_succ_of_some heval
                  have he : env = e := by simpa [evalS] using heval
                  subst he
                  refine ⟨1, ?_⟩
                  simp [evalS, hc]
              | true =>
                  obtain ⟨k'', rfl⟩ := evalS_succ_of_some heval
                  simp only [evalS] at heval
                  cases hb : evalS k'' b env with
                  | none => rw [hb] at heval; exact Option.noConfusion heval
                  | some r1 =>
                      rw [hb] at heval
                      cases r1 with
                      | env e1 =>
                          refine ⟨k'' + 1, ?_⟩
                          simp only [evalS, hc, hb]
                          exact heval
                      | undefined => exact absurd heval (by simp)
                      | err => exact absurd heval (by simp)
      | undefined => rw [hc] at heval; exact absurd heval (by simp)
      | err => rw [hc] at heval; exact absurd heval (by simp)

theorem runMachine_final_irreducible : ∀ (f : Nat) (s : Stmt) (env : Env)
    (t : Stmt) (e : Env), runMachine f s env = some (t, e) →
    reducibleS t = false := by
  intro f
  induction f with
  | zero =>
      intro s env t e h
      simp only [runMachine] at h
      cases hr : reducibleS s with
      | true => simp [hr] at h
      | false =>
          simp only [hr] at h
          simp at h
          obtain ⟨rfl, rfl⟩ := h
          exact hr
  | succ f ih =>
      intro s env t e h
      simp only [runMachine] at h
      cases hr : reducibleS s with
      | true =>
          simp only [hr] at h
          simp at h
          cases hs : stepS s env with
          | none => rw [hs] at h; exact Option.noConfusion h
          | some p => rw [hs] at h; exact ih p.1 p.2 t e h
      | false =>
          simp only [hr] at h
          simp at h
          obtain ⟨rfl, rfl⟩ := h
          exact hr

theorem runMachine_evalS : ∀ (f : Nat) (s : Stmt) (env : Env) (t : Stmt)
    (envF : Env), runMachine f s env = some (t, envF) →
    ∃ k, evalS k s env = some (.env envF) := by
  intro f
  induction f with
  | zero =>
      intro s env t envF h
      simp only [runMachine] at h
      cases hr : reducibleS s with
      | true => simp [hr] at h
      | false =>
          simp only [hr] at h
          simp at h
          obtain ⟨rfl, rfl⟩ := h
          obtain rfl := (reducibleS_false_iff s).mp hr
          exact ⟨1, by simp [evalS]⟩
  | succ f ih =>
      intro s env t envF h
      simp only [runMachine] at h
      cases hr : reducibleS s with
      | true =>
          simp only [hr] at h
          simp at h
          cases hs : stepS s env with
          | none => rw [hs] at h; exact Option.noConfusion h
          | some p =>
              rw [hs] at h
              obtain ⟨k, hk⟩ := ih p.1 p.2 t envF h
              exact stepS_evalS s env p.1 p.2 k envF hs hk
      | false =>
          simp only [hr] at h
          simp at h
          obtain ⟨rfl, rfl⟩ := h
          obtain rfl := (reducibleS_false_iff s).mp hr
          exact ⟨1, by simp [evalS]⟩

/-- Claim C9: among statement nodes, `DoNothing` is the only one whose
`reducible()` answers `false` (`Assign`, `If`, `Sequence`, `While` always
answer `true`); consequently, whenever the Machine's run loop terminates, the
final statement of its state is `DoNothing`. -/
theorem doNothing_only_irreducible_statement :
    (∀ s : Stmt, reducibleS s = false ↔ s = .doNothing)
    ∧ ∀ (f : Nat) (s : Stmt) (env : Env) (t : Stmt) (e : Env),
        runMachine f s env = some (t, e) → t = .doNothing := by
  constructor
  · intro s; cases s <;> simp [reducibleS]
  · intro f s env t e h
    exact (reducibleS_false_iff t).mp (runMachine_final_irreducible f s env t e h)

/-- Witness for claim C9 on the terminating run of `x = 1` from the empty
environment. -/
theorem doNothing_only_irreducible_statement_witness :
    (reducibleS .doNothing = false ↔ Stmt.doNothing = .doNothing)
    ∧ Stmt.doNothing = .doNothing :=
  ⟨doNothing_only_irreducible_statement.1 .doNothing,
   doNothing_only_irreducible_statement.2 5 (.assign "x" (.lit (.number 1)))
     [] .doNothing [("x", some (.number 1))] (by decide)⟩

/-- Claim C10: whenever the Machine's small-step run starting from
`(s, env)` terminates at some final pair `(t, envF)`, big-step evaluation of
`s` under `env` also produces an environment, namely the same `envF` (the
small-step and big-step statement semantics agree on terminating
programs). -/
theorem machine_final_env_matches_evaluate (f : Nat) (s : Stmt) (env : Env)
    (t : Stmt) (envF : Env) (h : runMachine f s env = some (t, envF)) :
    ∃ k, evalS k s env = some (.env envF) :=
  runMachine_evalS f s env t envF h

/-- Witness for claim C10 on the terminating run of
`x = x + 1` from `{x: 2}`. -/
theorem machine_final_env_matches_evaluate_witness :
    ∃ k, evalS k (.assign "x" (.add (.variable "x") (.lit (.number 1))))
        [("x", some (.number 2))]
      = some (.env [("x", some (.number 3))]) :=
  machine_final_env_matches_evaluate 5
    (.assign "x" (.add (.variable "x") (.lit (.number 1))))
    [("x", some (.number 2))] .doNothing [("x", some (.number 3))] (by decide)

/-! ## Normalization of well-typed expressions (claim C1) -/

theorem lookup_mem {α : Type} : ∀ (l : List (String × α)) (k : String) (v : α),
    List.lookup k l = some v → (k, v) ∈ l := by
  intro l
  induction l with
  | nil => intro k v h; simp [List.lookup] at h
  | cons p tl ih =>
      intro k v h
      obtain ⟨k', v'⟩ := p
      simp only [List.lookup] at h
      cases hb : (k == k') with
      | true =>
          rw [hb] at h
          obtain rfl := Option.some_inj.mp h
          obtain rfl : k = k' := by simpa using hb
          exact List.mem_cons_self _ _
      | false =>
          rw [hb] at h
          exact List.mem_cons_of_mem _ (ih k v h)

theorem envTyB_lookup (Γ : TCtx) (env : Env) (n : String) (τ : Ty)
    (hty : envTyB Γ env = true) (h : List.lookup n Γ = some τ) :
    ∃ l, jsLookup env n = some l ∧ litTy l = τ := by
  have hmem : (n, τ) ∈ Γ := lookup_mem Γ n τ h
  have hp := List.all_eq_true.mp hty (n, τ) hmem
  cases hj : jsLookup env n with
  | none => rw [hj] at hp; exact absurd hp (by simp)
  | some l =>
      rw [hj] at hp
      exact ⟨l, rfl, by simpa using hp⟩

theorem wt_step (Γ : TCtx) (env : Env) (henv : envTyB Γ env = true) :
    ∀ (e : Expr) (τ : Ty), WTExpr Γ e τ → reducibleE e = true →
    ∃ e', reduceE e env = some e' ∧ WTExpr Γ e' τ
      ∧ evalE e' env = evalE e env ∧ weight e' < weight e := by
  intro e τ ht
  induction ht with
  | number => intro hr; simp [reducibleE] at hr
  | boolean => intro hr; simp [reducibleE] at hr
  | @variableRule n τ' h =>
      intro _
      obtain ⟨l, hl, hty⟩ := envTyB_lookup Γ env n τ' henv h
      refine ⟨.lit l, ?_, ?_, ?_, ?_⟩
      · simp [reduceE, hl]
      · cases l with
        | number v => rw [← hty]; exact WTExpr.number
        | boolean b => rw [← hty]; exact WTExpr.boolean
      · simp [evalE, hl]
      · simp [weight]
  | @add l r hl hr ihl ihr =>
      intro _
      by_cases hrl : reducibleE l = true
      · obtain ⟨l', h1, h2, h3, h4⟩ := ihl hrl
        refine ⟨.add l' r, ?_, WTExpr.add h2 hr, ?_, ?_⟩
        · simp [reduceE, hrl, h1]
        · simp only [evalE, h3]
        · simp only [weight]; omega
      · by_cases hrr : reducibleE r = true
        · obtain ⟨r', h1, h2, h3, h4⟩ := ihr hrr
          refine ⟨.add l r', ?_, WTExpr.add hl h2, ?_, ?_⟩
          · simp [reduceE, hrl, hrr, h1]
          · simp only [evalE, h3]
          · simp only [weight]; omega
        · obtain ⟨a, rfl⟩ := not_reducibleE l (by simpa using hrl)
          obtain ⟨b, rfl⟩ := not_reducibleE r (by simpa using hrr)
          refine ⟨.lit (jsAdd a b), ?_, ?_, ?_, ?_⟩
          · simp [reduceE, reducibleE]
          · exact WTExpr.number
          · simp [evalE]
          · simp [weight]
  | @multiply l r hl hr ihl ihr =>
      intro _
      by_cases hrl : reducibleE l = true
      · obtain ⟨l', h1, h2, h3, h4⟩ := ihl hrl
        refine ⟨.multiply l' r, ?_, WTExpr.multiply h2 hr, ?_, ?_⟩
        · simp [reduceE, hrl, h1]
        · simp only [evalE, h3]
        · simp only [weight]; omega
      · by_cases hrr : reducibleE r = true
        · obtain ⟨r', h1, h2, h3, h4⟩ := ihr hrr
          refine ⟨.multiply l r', ?_, WTExpr.multiply hl h2, ?_, ?_⟩
          · simp [reduceE, hrl, hrr, h1]
          · simp only [evalE, h3]
          · simp only [weight]; omega
        · obtain ⟨a, rfl⟩ := not_reducibleE l (by simpa using hrl)
          obtain ⟨b, rfl⟩ := not_reducibleE r (by simpa using hrr)
          refine ⟨.lit (jsMul a b), ?_, ?_, ?_, ?_⟩
          · simp [reduceE, reducibleE]
          · exact WTExpr.number
          · simp [evalE]
          · simp [weight]
  | @lessThan l r hl hr ihl ihr =>
      intro _
      by_cases hrl : reducibleE l = true
      · obtain ⟨l', h1, h2, h3, h4⟩ := ihl hrl
        refine ⟨.lessThan l' r, ?_, WTExpr.lessThan h2 hr, ?_, ?_⟩
        · simp [reduceE, hrl, h1]
        · simp only [evalE, h3]
        · simp only [weight]; omega
      · by_cases hrr : reducibleE r = true
        · obtain ⟨r', h1, h2, h3, h4⟩ := ihr hrr
          refine ⟨.lessThan l r', ?_, WTExpr.lessThan hl h2, ?_, ?_⟩
          · simp [reduceE, hrl, hrr, h1]
          · simp only [evalE, h3]
          · simp only [weight]; omega
        · obtain ⟨a, rfl⟩ := not_reducibleE l (by simpa using hrl)
          obtain ⟨b, rfl⟩ := not_reducibleE r (by simpa using hrr)
          refine ⟨.lit (jsLt a b), ?_, ?_, ?_, ?_⟩
          · simp [reduceE, reducibleE]
          · exact WTExpr.boolean
          · simp [evalE]
          · simp [weight]

theorem exprRun_fuel : ∀ (f : Nat) (Γ : TCtx) (τ : Ty) (e : Expr) (env : Env),
    weight e ≤ f → WTExpr Γ e τ → envTyB Γ env = true →
    ∃ l, exprRun f e env = some (.lit l) ∧ evalE e env = .ok l := by
  intro f
  induction f with
  | zero =>
      intro Γ τ e env hw _ _
      cases e with
      | lit l => exact ⟨l, by simp [exprRun, reducibleE], by simp [evalE]⟩
      | «variable» n => simp [weight] at hw
      | add l r => simp [weight] at hw
      | multiply l r => simp [weight] at hw
      | lessThan l r => simp [weight] at hw
  | succ f ih =>
      intro Γ τ e env hw ht henv
      cases hre : reducibleE e with
      | false =>
          obtain ⟨l, rfl⟩ := not_reducibleE e hre
          exact ⟨l, by simp [exprRun, reducibleE], by simp [evalE]⟩
      | true =>
          obtain ⟨e', h1, h2, h3, h4⟩ := wt_step Γ env henv e τ ht hre
          have hw' : weight e' ≤ f := by omega
          obtain ⟨l, hrun, hval⟩ := ih Γ τ e' env hw' h2 henv
          refine ⟨l, ?_, ?_⟩
          · simp [exprRun, hre, h1, hrun]
          · rw [← h3]; exact hval

/-- Claim C1: for every well-typed expression `e` and environment providing a
correctly-typed binding for every name of the typing context, repeatedly
applying the small-step `reduce` to `e` until `reducible()` is `false`
terminates (in `weight e` steps) and yields a literal node `l` that is equal
to the result of `e.evaluate(env)`. -/
theorem reduce_to_evaluate_equivalence (Γ : TCtx) (τ : Ty) (e : Expr)
    (env : Env) (ht : WTExpr Γ e τ) (henv : envTyB Γ env = true) :
    ∃ l, exprRun (weight e) e env = some (.lit l) ∧ evalE e env = .ok l :=
  exprRun_fuel (weight e) Γ τ e env (le_refl _) ht henv

/-- Witness for claim C1 on `x + 1` under `{x: Number(2)}`. -/
theorem reduce_to_evaluate_equivalence_witness :
    ∃ l, exprRun (weight (.add (.variable "x") (.lit (.number 1))))
        (.add (.variable "x") (.lit (.number 1))) [("x", some (.number 2))]
      = some (.lit l)
    ∧ evalE (.add (.variable "x") (.lit (.number 1)))
        [("x", some (.number 2))] = .ok l :=
  reduce_to_evaluate_equivalence [("x", Ty.num)] .num
    (.add (.variable "x") (.lit (.number 1))) [("x", some (.number 2))]
    (WTExpr.add (WTExpr.variableRule (by decide)) WTExpr.number) (by decide)

/-! ## Compiled closures agree with the evaluator (claim C5) -/

theorem cexecS_mono : ∀ (k : Nat) (s : Stmt) (env : CEnv) (r : CEnv) (k' : Nat),
    k ≤ k' → cexecS k s env = some r → cexecS k' s env = some r := by
  intro k
  induction k with
  | zero => intro s env r k' _ h; simp [cexecS] at h
  | succ k ih =>
      intro s env r k' hk h
      obtain ⟨k'', rfl⟩ : ∃ k'', k' = k'' + 1 := ⟨k' - 1, by omega⟩
      have hkk : k ≤ k'' := by omega
      cases s with
      | doNothing => simpa [cexecS] using h
      | assign n e => simpa [cexecS] using h
      | ifStmt c cs alt =>
          simp only [cexecS] at h ⊢
          cases ht : truthy (cevalE c env) with
          | true => rw [ht] at h; exact ih _ _ _ _ hkk h
          | false => rw [ht] at h; exact ih _ _ _ _ hkk h
      | sequence a b =>
          simp only [cexecS] at h ⊢
          cases ha : cexecS k a env with
          | none => rw [ha] at h; exact Option.noConfusion h
          | some e1 =>
              rw [ha] at h
              rw [ih _ _ _ _ hkk ha]
              exact ih _ _ _ _ hkk h
      | whileStmt c b =>
          simp only [cexecS] at h ⊢
          cases ht : truthy (cevalE c env) with
          | false => rw [ht] at h; exact h
          | true =>
              rw [ht] at h
              cases hb : cexecS k b env with
              | none => rw [hb] at h; exact Option.noConfusion h
              | some e1 =>
                  rw [hb] at h
                  rw [ih _ _ _ _ hkk hb]
                  exact ih _ _ _ _ hkk h

theorem projLit_jsAdd (a b : Lit) :
    jsAddC (projLit a) (projLit b) = projLit (jsAdd a b) := by
  cases a <;> cases b <;> simp [projLit, jsAdd, jsAddC, toNumC, toNum]

theorem projLit_jsMul (a b : Lit) :
    jsMulC (projLit a) (projLit b) = projLit (jsMul a b) := by
  cases a <;> cases b <;> simp [projLit, jsMul, jsMulC, toNumC, toNum]

theorem projLit_jsLt (a b : Lit) :
    jsLtC (projLit a) (projLit b) = projLit (jsLt a b) := by
  cases a <;> cases b <;> simp [projLit, jsLt, jsLtC, toNumC, toNum]

theorem lookup_projEnv (env : Env) (n : String) :
    List.lookup n (projEnv env) = (List.lookup n env).map projVal := by
  induction env with
  | nil => simp [projEnv]
  | cons p tl ih =>
      obtain ⟨k, v⟩ := p
      simp only [projEnv, List.map, List.lookup] at ih ⊢
      cases hb : (n == k) <;> simp [ih]

theorem jsLookup_eq_some {env : Env} {n : String} {l : Lit}
    (h : jsLookup env n = some l) : List.lookup n env = some (some l) := by
  unfold jsLookup at h
  revert h
  cases List.lookup n env with
  | none => intro h; exact Option.noConfusion h
  | some v => intro h; exact congrArg some h

theorem cevalE_evalE : ∀ (e : Expr) (env : Env) (l : Lit),
    evalE e env = .ok l → cevalE e (projEnv env) = projLit l := by
  intro e
  induction e with
  | lit l0 =>
      intro env l h
      obtain rfl : l0 = l := by simpa [evalE] using h
      rfl
  | «variable» n =>
      intro env l h
      simp only [evalE] at h
      cases hj : jsLookup env n with
      | none => rw [hj] at h; exact ERes.noConfusion h
      | some l0 =>
          rw [hj] at h
          obtain rfl : l0 = l := by simpa using h
          simp [cevalE, lookup_projEnv, jsLookup_eq_some hj, projVal]
  | add el er ihl ihr =>
      intro env l h
      simp only [evalE] at h
      cases hl : evalE el env with
      | ok a =>
          rw [hl] at h
          cases hr : evalE er env with
          | ok b =>
              rw [hr] at h
              obtain rfl : jsAdd a b = l := by simpa using h
              simp only [cevalE, ihl env a hl, ihr env b hr, projLit_jsAdd]
          | undefined => rw [hr] at h; exact absurd h (by simp)
          | err => rw [hr] at h; exact absurd h (by simp)
      | undefined => rw [hl] at h; exact absurd h (by simp)
      | err => rw [hl] at h; exact absurd h (by simp)
  | multiply el er ihl ihr =>
      intro env l h
      simp only [evalE] at h
      cases hl : evalE el env with
      | ok a =>
          rw [hl] at h
          cases hr : evalE er env with
          | ok b =>
              rw [hr] at h
              obtain rfl : jsMul a b = l := by simpa using h
              simp only [cevalE, ihl env a hl, ihr env b hr, projLit_jsMul]
          | undefined => rw [hr] at h; exact absurd h (by simp)
          | err => rw [hr] at h; exact absurd h (by simp)
      | undefined => rw [hl] at h; exact absurd h (by simp)
      | err => rw [hl] at h; exact absurd h (by simp)
  | lessThan el er ihl ihr =>
      intro env l h
      simp only [evalE] at h
      cases hl : evalE el env with
      | ok a =>
          rw [hl] at h
          cases hr : evalE er env with
          | ok b =>
              rw [hr] at h
              obtain rfl : jsLt a b = l := by simpa using h
              simp only [cevalE, ihl env a hl, ihr env b hr, projLit_jsLt]
          | undefined => rw [hr] at h; exact absurd h (by simp)
          | err => rw [hr] at h; exact absurd h (by simp)
      | undefined => rw [hl] at h; exact absurd h (by simp)
      | err => rw [hl] at h; exact absurd h (by simp)

theorem cevalE_evalE_absent (e : Expr) (env : Env)
    (h : evalE e env = .undefined) : cevalE e (projEnv env) = .undefined := by
  cases e with
  | lit l => simp [evalE] at h
  | «variable» n =>
      simp only [evalE] at h
      cases hj : jsLookup env n with
      | some l0 => rw [hj] at h; exact absurd h (by simp)
      | none =>
          unfold jsLookup at hj
          simp only [cevalE, lookup_projEnv]
          cases h' : List.lookup n env with
          | none => simp
          | some v =>
              rw [h'] at hj
              cases v with
              | none => simp [projVal]
              | some l0 => exact absurd hj (by simp)
  | add el er =>
      simp only [evalE] at h
      cases hl : evalE el env with
      | ok a =>
          rw [hl] at h
          cases hr : evalE er env with
          | ok b => rw [hr] at h; exact absurd h (by simp)
          | undefined => rw [hr] at h; exact absurd h (by simp)
          | err => rw [hr] at h; exact absurd h (by simp)
      | undefined => rw [hl] at h; exact absurd h (by simp)
      | err => rw [hl] at h; exact absurd h (by simp)
  | multiply el er =>
      simp only [evalE] at h
      cases hl : evalE el env with
      | ok a =>
          rw [hl] at h
          cases hr : evalE er env with
          | ok b => rw [hr] at h; exact absurd h (by simp)
          | undefined => rw [hr] at h; exact absurd h (by simp)
          | err => rw [hr] at h; exact absurd h (by simp)
      | undefined => rw [hl] at h; exact absurd h (by simp)
      | err => rw [hl] at h; exact absurd h (by simp)
  | lessThan el er =>
      simp only [evalE] at h
      cases hl : evalE el env with
      | ok a =>
          rw [hl] at h
          cases hr : evalE er env with
          | ok b => rw [hr] at h; exact absurd h (by simp)
          | undefined => rw [hr] at h; exact absurd h (by simp)
          | err => rw [hr] at h; exact absurd h (by simp)
      | undefined => rw [hl] at h; exact absurd h (by simp)
      | err => rw [hl] at h; exact absurd h (by simp)

theorem projEnv_setKey (env : Env) (n : String) (w : Option Lit) :
    projEnv (setKey env n w) = setKey (projEnv env) n (projVal w) := by
  induction env with
  | nil => rfl
  | cons p tl ih =>
      obtain ⟨k, v⟩ := p
      by_cases hk : k = n
      · simp [setKey, projEnv, hk]
      · simp only [setKey, if_neg hk, projEnv, List.map]
        exact congrArg _ ih

theorem cexecS_evalS : ∀ (k : Nat) (s : Stmt) (env e' : Env),
    evalS k s env = some (.env e') →
    ∃ f, cexecS f s (projEnv env) = some (projEnv e') := by
  intro k
  induction k with
  | zero => intro s env e' h; simp [evalS] at h
  | succ k ih =>
      intro s env e' h
      cases s with
      | doNothing =>
          obtain rfl : env = e' := by simpa [evalS] using h
          exact ⟨1, by simp [cexecS]⟩
      | assign n ex =>
          simp only [evalS] at h
          cases hx : evalE ex env with
          | ok v =>
              rw [hx] at h
              have he : merge env n (some v) = e' := by simpa using h
              refine ⟨1, ?_⟩
              simp only [cexecS, cevalE_evalE ex env v hx, ← he, merge,
                projEnv_setKey]
              rfl
          | undefined =>
              rw [hx] at h
              have he : merge env n none = e' := by simpa using h
              refine ⟨1, ?_⟩
              simp only [cexecS, cevalE_evalE_absent ex env hx, ← he, merge,
                projEnv_setKey]
              rfl
          | err => rw [hx] at h; exact absurd h (by simp)
      | ifStmt c cs alt =>
          simp only [evalS] at h
          cases hc : evalE c env with
          | ok l =>
              rw [hc] at h
              cases l with
              | number v => exact absurd h (by simp)
              | boolean bv =>
                  cases bv with
                  | true =>
                      obtain ⟨f, hf⟩ := ih cs env e' h
                      refine ⟨f + 1, ?_⟩
                      simp only [cexecS, cevalE_evalE c env _ hc, projLit,
                        truthy, if_true]
                      exact hf
                  | false =>
                      obtain ⟨f, hf⟩ := ih alt env e' h
                      refine ⟨f + 1, ?_⟩
                      simp only [cexecS, cevalE_evalE c env _ hc, projLit,
                        truthy, if_false]
                      exact hf
          | undefined => rw [hc] at h; exact absurd h (by simp)
          | err => rw [hc] at h; exact absurd h (by simp)
      | sequence a b =>
          simp only [evalS] at h
          cases ha : evalS k a env with
          | none => rw [ha] at h; exact Option.noConfusion h
          | some r1 =>
              rw [ha] at h
              cases r1 with
              | env e1 =>
                  obtain ⟨f1, hf1⟩ := ih a env e1 ha
                  obtain ⟨f2, hf2⟩ := ih b e1 e' h
                  refine ⟨max f1 f2 + 1, ?_⟩
                  simp only [cexecS]
                  rw [cexecS_mono f1 a (projEnv env) _ (max f1 f2)
                    (le_max_left _ _) hf1]
                  exact cexecS_mono f2 b (projEnv e1) _ (max f1 f2)
                    (le_max_right _ _) hf2
              | undefined => exact absurd h (by simp)
              | err => exact absurd h (by simp)
      | whileStmt c b =>
          simp only [evalS] at h
          cases hc : evalE c env with
          | ok l =>
              rw [hc] at h
              cases l with
              | number v => exact absurd h (by simp)
              | boolean bv =>
                  cases bv with
                  | false =>
                      obtain rfl : env = e' := by simpa using h
                      refine ⟨1, ?_⟩
                      simp [cexecS, cevalE_evalE c env _ hc, projLit, truthy]
                  | true =>
                      cases hb : evalS k b env with
                      | none => rw [hb] at h; exact Option.noConfusion h
                      | some r1 =>
                          rw [hb] at h
                          cases r1 with
                          | env e1 =>
                              obtain ⟨f1, hf1⟩ := ih b env e1 hb
                              obtain ⟨f2, hf2⟩ := ih (.whileStmt c b) e1 e' h
                              refine ⟨max f1 f2 + 1, ?_⟩
                              simp only [cexecS, cevalE_evalE c env _ hc,
                                projLit, truthy, if_true]
                              rw [cexecS_mono f1 b (projEnv env) _ (max f1 f2)
                                (le_max_left _ _) hf1]
                              exact cexecS_mono f2 (.whileStmt c b)
                                (projEnv e1) _ (max f1 f2)
                                (le_max_right _ _) hf2
                          | undefined => exact absurd h (by simp)
                          | err => exact absurd h (by simp)
          | undefined => rw [hc] at h; exact absurd h (by simp)
          | err => rw [hc] at h; exact absurd h (by simp)

/-- Claim C5: invoking the closure compiled from a node on (the raw-value
image of) an environment yields the same result as `evaluate`: for an
expression whose evaluation yields the literal `l`, the compiled closure
returns the corresponding raw value, and for a statement whose evaluation
yields the environment `e'`, the compiled closure returns the corresponding
raw-value environment. -/
theorem compile_equivalence :
    (∀ (e : Expr) (env : Env) (l : Lit), evalE e env = .ok l →
        cevalE e (projEnv env) = projLit l)
    ∧ ∀ (s : Stmt) (env e' : Env) (k : Nat), evalS k s env = some (.env e') →
        ∃ f, cexecS f s (projEnv env) = some (projEnv e') :=
  ⟨fun e env l h => cevalE_evalE e env l h,
   fun s env e' k h => cexecS_evalS k s env e' h⟩

/-- Witness for claim C5 on the expression `1 + 2` and the statement
`x = 7`, both from the empty environment. -/
theorem compile_equivalence_witness :
    cevalE (.add (.lit (.number 1)) (.lit (.number 2))) (projEnv [])
      = projLit (.number 3)
    ∧ ∃ f, cexecS f (.assign "x" (.lit (.number 7))) (projEnv [])
        = some (projEnv [("x", some (.number 7))]) :=
  ⟨compile_equivalence.1 (.add (.lit (.number 1)) (.lit (.number 2))) []
      (.number 3) (by decide),
   compile_equivalence.2 (.assign "x" (.lit (.number 7))) []
      [("x", some (.number 7))] 1 (by decide)⟩

end Chapter2
